import Mathlib

/-!
# Verification of the gdrive-sync reconciliation engine

Shallow embedding of the sync reconciliation engine of the `gdrive-sync`
repository, together with theorems settling the frozen claims about it.

The repository contains two overlapping implementations:

* `src/gdrive_sync.py` — a script with a tiered push comparator
  (`upload_or_update_file`), a recursive tree walker
  (`sync_directory_recursive`) and a dry-run placeholder scheme using the
  reserved id marker `"dry_run_"`;
* `src/classes/SyncManager.py` — an OOP variant (`sync_to_drive`,
  `sync_from_drive`) with a policy-driven comparator and a different
  placeholder scheme (`"simulated_drive_folder_id_for_"`).

Machine integers do not occur; timestamps are modelled as `Int` seconds
(the Python code compares timezone-aware datetimes; the comparisons used by
the engine are exactly the ones modelled here), sizes as `Nat`, content
digests as `Option String` (`none` = the digest could not be computed /
is absent).
-/

namespace GdriveSync

/-! ## Pure decision kernels

`needsUpdate` embeds the tiered `needs_update` computation of
`upload_or_update_file` (src/gdrive_sync.py lines 292-327):

1. remote `modifiedTime` absent → update;
2. timestamp tier: local mtime strictly newer than remote mtime plus a
   2-second tolerance → update;
3. size tier: Drive size present and different from the local size → update;
4. hash tier (only when `COMPARE_HASHES` and the Drive md5 is present):
   local md5 computed and different → update, local md5 uncomputable →
   update; when `COMPARE_HASHES` but the Drive md5 is absent → update;
5. otherwise the file is up to date.
-/

/-- `if drive_size_str and int(drive_size_str) != local_size` -/
def sizeMismatch : Option Nat → Nat → Bool
  | some s, n => decide (s ≠ n)
  | none, _ => false

/-- The body of the hash tier once the Drive md5 is known to be present:
`if local_md5_val and local_md5_val != drive_md5: ... elif not local_md5_val: ...` -/
def hashMismatch : Option String → Option String → Bool
  | some lv, some rv => decide (lv ≠ rv)
  | none, _ => true
  | some _, none => false

/-- The `needs_update` computation of `upload_or_update_file`. -/
def needsUpdate (compareHashes : Bool) (localMtime : Int) (localSize : Nat)
    (localMd5 : Option String) (rMtime : Option Int) (rSize : Option Nat)
    (rMd5 : Option String) : Bool :=
  match rMtime with
  | none => true
  | some rm =>
    if rm + 2 < localMtime then true
    else if sizeMismatch rSize localSize then true
    else if compareHashes && rMd5.isSome then hashMismatch localMd5 rMd5
    else if compareHashes && !rMd5.isSome then true
    else false

/-- Conflict-resolution policies of `SyncManager` (config value
`conflict_resolution`). -/
inductive ConflictPolicy where
  | newerWins
  | localWins
  | remoteWins
  | skipAlways
deriving DecidableEq, Repr

/-- The push decision of `SyncManager.sync_to_drive` for a local file whose
name matches a remote file (lines 160-199): returns
`(perform_upload, update_existing)`.  The remote-mtime-absent check comes
first; only then is the conflict policy consulted. -/
def smUploadDecision (policy : ConflictPolicy) (localMtime : Int)
    (remoteMtime : Option Int) : Bool × Bool :=
  match remoteMtime with
  | some rm =>
    match policy with
    | .newerWins => if rm < localMtime then (true, true) else (false, false)
    | .localWins => (true, true)
    | .remoteWins => (false, false)
    | .skipAlways => (false, false)
  | none => (true, true)

/-- The pull decision of `SyncManager.sync_from_drive` for a remote file whose
name matches an existing local file (lines 286-308): `true` means
`perform_download`.  A missing remote mtime forces a download before the
policy is consulted; an unreadable local mtime does the same. -/
def decidePull (policy : ConflictPolicy) (remoteMtime : Option Int)
    (localMtime : Option Int) : Bool :=
  match remoteMtime with
  | none => true
  | some rm =>
    match localMtime with
    | none => true
    | some lm =>
      match policy with
      | .newerWins => decide (lm < rm)
      | .remoteWins => true
      | .localWins => false
      | .skipAlways => false

/-! ## Trees

The local tree is what `Path.iterdir` exposes: named entries in filesystem
listing order; a file carries its mtime (UTC seconds), size, and optional
md5 (`none` when `get_file_md5` cannot read the file).

The remote tree is the hierarchical Drive model of the spec (every item has
exactly one parent): each folder holds its children in the order the listing
returns them.  Duplicate names in one folder are allowed. -/

mutual
inductive LNode where
  | file : Int → Nat → Option String → LNode
  | dir : LEntries → LNode
inductive LEntries where
  | nil : LEntries
  | cons : String → LNode → LEntries → LEntries
end

mutual
inductive RNode where
  | file : String → Option Int → Option Nat → Option String → RNode
  | folder : RItems → RNode
inductive RItems where
  | nil : RItems
  | cons : RItem → RItems → RItems
inductive RItem where
  | mk : String → String → RNode → RItem
end

def RItem.id : RItem → String
  | .mk i _ _ => i

def RItem.name : RItem → String
  | .mk _ n _ => n

def RItem.node : RItem → RNode
  | .mk _ _ d => d

def RItems.toList : RItems → List RItem
  | .nil => []
  | .cons it rest => it :: rest.toList

def RItems.push : RItems → RItem → RItems
  | .nil, it => .cons it .nil
  | .cons x rest, it => .cons x (rest.push it)

/-- Model of Python's `str.startswith`. -/
def strStarts (s pat : String) : Bool := pat.data.isPrefixOf s.data

/-- Model of Python's `str.lower` (ASCII). -/
def strToLower (s : String) : String := String.mk (s.data.map Char.toLower)

/-- `local_item_name.lower() in ['thumbs.db', '$recycle.bin', '.ds_store']` -/
def isJunkName (n : String) : Bool :=
  strToLower n == "thumbs.db" || strToLower n == "$recycle.bin" ||
    strToLower n == ".ds_store"

/-- The walker skips hidden items and platform junk names. -/
def skipLocalName (n : String) : Bool := strStarts n "." || isJunkName n

/-! ### The per-visit name map

`sync_directory_recursive` builds `drive_items_map` as a Python dict keyed by
name: `for item in listing: drive_items_map[item['name']] = item` — a later
duplicate name overwrites an earlier one. -/

/-- One dict assignment `m[item.name] = item`. -/
def insertItem : List (String × RItem) → RItem → List (String × RItem)
  | [], it => [(it.name, it)]
  | (k, v) :: rest, it =>
    if k = it.name then (k, it) :: rest else (k, v) :: insertItem rest it

/-- `drive_items_map` built from a listing. -/
def buildMap (rs : RItems) : List (String × RItem) := rs.toList.foldl insertItem []

/-- Dict lookup `drive_items_map.get(name)`. -/
def mapGet : List (String × RItem) → String → Option RItem
  | [], _ => none
  | (k, v) :: rest, n => if k = n then some v else mapGet rest n

/-- Name resolution as the walker's dict performs it. -/
def dmGet (rs : RItems) (n : String) : Option RItem := mapGet (buildMap rs) n

def containsName : RItems → String → Bool
  | .nil, _ => false
  | .cons it rest, n => it.name == n || containsName rest n

/-- The last item of a listing carrying a given name. -/
def lastNamed : RItems → String → Option RItem
  | .nil, _ => none
  | .cons it rest, n =>
    if containsName rest n then lastNamed rest n
    else if it.name = n then some it else none

/-- The Drive query `name = '...' and '<parent>' in parents`: the items of the
listing whose name matches, in listing order. -/
def queryByName (rs : RItems) (n : String) : List RItem :=
  rs.toList.filter (fun it => it.name == n)

/-- `find_drive_item` (gdrive_sync.py lines 216-246): run the name query and
return `items[0]`. -/
def find_drive_item (rs : RItems) (n : String) : Option RItem :=
  (queryByName rs n).head?

/-- `GoogleDriveService.get_item_id` (lines 57-82): same query, returning
`items[0].get('id')`. -/
def get_item_id (rs : RItems) (n : String) : Option String :=
  (find_drive_item rs n).map RItem.id

/-! ## The tree walker of gdrive_sync.py -/

/-- The module-level switches `DRY_RUN` and `COMPARE_HASHES`. -/
structure GCfg where
  dryRun : Bool
  compareHashes : Bool

/-- Environment of transient faults: `failList fid = true` means listing the
children of folder `fid` raises `HttpError` (caught at lines 397-402). -/
structure GEnv where
  failList : String → Bool

/-- Remote-server bookkeeping: the server clock stamped onto mutated items'
`modifiedTime`, and a counter for fresh ids. -/
structure Srv where
  clock : Int
  nextId : Nat

/-- One remote API call issued to the real client. -/
inductive Call where
  | listChildren : String → Call
  | createFolder : String → String → Call
  | uploadNew : String → String → Call
  | updateFile : String → Call
  | download : String → Call
deriving DecidableEq, Repr

/-- Fresh server-assigned ids (opaque strings in reality). -/
def genId (n : Nat) : String := "real_id_" ++ toString n

/-- `"".join(c if c.isalnum() or c in (' ', '_', '-'[, '.']) else '_' for c in name)` -/
def sanitizeChar (allowDot : Bool) (c : Char) : Char :=
  if c.isAlphanum || c = ' ' || c = '_' || c = '-' || (allowDot && c = '.') then c
  else '_'

/-- The sanitized name part with `' '` replaced by `'_'`. -/
def sanitizeName (allowDot : Bool) (s : String) : String :=
  String.mk ((s.data.map (sanitizeChar allowDot)).map fun c => if c = ' ' then '_' else c)

/-- Placeholder id returned by `create_drive_folder` when `DRY_RUN` is on. -/
def dryFolderId (n : String) : String := "dry_run_folder_id_for_" ++ sanitizeName false n

/-- Placeholder id returned by the new-upload branch of `upload_or_update_file`
when `DRY_RUN` is on. -/
def dryFileId (n : String) : String := "dry_run_file_id_for_" ++ sanitizeName true n

/-- `files().update(fileId=...)` on the item the map resolved (the last item
of the listing with that name; ids are unique per folder on Drive, so the
update lands on exactly that occurrence).  Name, id and position are
preserved, only the payload changes. -/
def replaceLastNode : RItems → String → RNode → RItems
  | .nil, _, _ => .nil
  | .cons it rest, n, nd =>
    if containsName rest n then .cons it (replaceLastNode rest n nd)
    else if it.name = n then .cons (.mk it.id it.name nd) rest
    else .cons it (replaceLastNode rest n nd)

/-- Result of a (sub)walk: the updated children of the visited folder, the
server state, and the trace of real remote API calls, in order. -/
structure WRes where
  rs : RItems
  srv : Srv
  tr : List Call

mutual
/-- `sync_directory_recursive(service, local_dir_path, drive_parent_folder_id)`:
one directory visit.  `fid` is the Drive parent folder id and `rs` its
children.  The listing is suppressed exactly when `DRY_RUN` is active and
`fid` carries the reserved `"dry_run_"` marker, in which case the name map is
empty (lines 380-382).  A failed listing (`env.failList`) returns without
processing this directory, as the `except HttpError` branch does. -/
def syncDirG (cfg : GCfg) (env : GEnv) (srv : Srv) (fid : String) (rs : RItems)
    (ls : LEntries) : WRes :=
  if cfg.dryRun && strStarts fid "dry_run_" then
    syncEntriesG cfg env srv fid rs [] ls
  else if env.failList fid then
    ⟨rs, srv, [Call.listChildren fid]⟩
  else
    let r := syncEntriesG cfg env srv fid rs (buildMap rs) ls
    ⟨r.rs, r.srv, Call.listChildren fid :: r.tr⟩
termination_by (sizeOf ls, 1)

/-- The `for local_item_path in local_items_iterator` loop.  `mp` is the
name → item map built once at the start of the visit (not refreshed while
items are created). -/
def syncEntriesG (cfg : GCfg) (env : GEnv) (srv : Srv) (fid : String) (rs : RItems)
    (mp : List (String × RItem)) (ls : LEntries) : WRes :=
  match ls with
  | .nil => ⟨rs, srv, []⟩
  | .cons n node rest =>
    if skipLocalName n then syncEntriesG cfg env srv fid rs mp rest
    else
      let s := syncOneG cfg env srv fid rs mp n node
      let r := syncEntriesG cfg env s.srv fid s.rs mp rest
      ⟨r.rs, r.srv, s.tr ++ r.tr⟩
termination_by (sizeOf ls, 0)

/-- One local item: for a file, the folder-clash check then
`upload_or_update_file`; for a directory, the file-clash check,
find-or-create, then recursion into the resolved or created folder. -/
def syncOneG (cfg : GCfg) (env : GEnv) (srv : Srv) (fid : String) (rs : RItems)
    (mp : List (String × RItem)) (n : String) (node : LNode) : WRes :=
  match node with
  | .file lmt lsz lmd5 =>
    match mapGet mp n with
    | some it =>
      match it.node with
      | .folder _ => ⟨rs, srv, []⟩   -- CONFLICT: local file, Drive folder; skip
      | .file rmime rmt rsz rmd5 =>
        if needsUpdate cfg.compareHashes lmt lsz lmd5 rmt rsz rmd5 then
          if cfg.dryRun then ⟨rs, srv, []⟩   -- "[DRY RUN] Would update file"
          else
            ⟨replaceLastNode rs n (.file rmime (some srv.clock) (some lsz) lmd5),
             ⟨srv.clock + 1, srv.nextId⟩, [Call.updateFile it.id]⟩
        else ⟨rs, srv, []⟩   -- up to date, skip
    | none =>
      if cfg.dryRun then ⟨rs, srv, []⟩   -- returns dryFileId n; caller ignores it
      else
        ⟨rs.push (.mk (genId srv.nextId) n (.file "" (some srv.clock) (some lsz) lmd5)),
         ⟨srv.clock + 1, srv.nextId + 1⟩, [Call.uploadNew n fid]⟩
  | .dir sub =>
    match mapGet mp n with
    | some it =>
      match it.node with
      | .file _ _ _ _ => ⟨rs, srv, []⟩   -- CONFLICT: local dir, Drive file; skip
      | .folder subRs =>
        let r := syncDirG cfg env srv it.id subRs sub
        ⟨replaceLastNode rs n (.folder r.rs), r.srv, r.tr⟩
    | none =>
      if cfg.dryRun then
        let r := syncDirG cfg env srv (dryFolderId n) .nil sub
        ⟨rs, r.srv, r.tr⟩
      else
        let nid := genId srv.nextId
        let r := syncDirG cfg env ⟨srv.clock + 1, srv.nextId + 1⟩ nid .nil sub
        ⟨rs.push (.mk nid n (.folder r.rs)), r.srv, Call.createFolder n fid :: r.tr⟩
termination_by (sizeOf node, 0)
end
/-- Last match of a name in a plain listing, with a convenient cons equation. -/
def listLast (l : List RItem) (n : String) : Option RItem :=
  match l with
  | [] => none
  | it :: rest =>
    match listLast rest n with
    | some x => some x
    | none => if it.name = n then some it else none
/-- The names of one local directory level, in order. -/
def localNames : LEntries → List String
  | .nil => []
  | .cons n _ rest => n :: localNames rest

mutual
/-- Well-formedness of a local node for the idempotence argument: every
file's md5 is computable (a file whose digest cannot be read is re-uploaded
by every run when hashes are compared), and directories are well formed. -/
def lnodeWF : LNode → Bool
  | .file _ _ md5 => md5.isSome
  | .dir sub => lentriesWF sub
/-- Well-formedness of a local directory level: names are unique at each
level (as on a real filesystem) and all nodes are well formed. -/
def lentriesWF : LEntries → Bool
  | .nil => true
  | .cons n node rest =>
    !(localNames rest).contains n && lnodeWF node && lentriesWF rest
end

mutual
/-- All file mtimes in the node are at most `c` (no local file is dated in
the future of the server clock). -/
def lnodeMtLE (c : Int) : LNode → Bool
  | .file mt _ _ => decide (mt ≤ c)
  | .dir sub => lentriesMtLE c sub
def lentriesMtLE (c : Int) : LEntries → Bool
  | .nil => true
  | .cons _ node rest => lnodeMtLE c node && lentriesMtLE c rest
end
/-- The per-entry synchronisation invariant: every non-skipped local entry
resolves (through the walker's dict) to a remote item that is either a type
clash — skipped by every run — or, for a file, compares as up to date, and,
for a directory, a folder whose children satisfy the invariant recursively. -/
def syncedE (ch : Bool) (rs : RItems) (ls : LEntries) : Bool :=
  match ls with
  | .nil => true
  | .cons n node rest =>
    (if skipLocalName n then true
     else
       match node, dmGet rs n with
       | .file lmt lsz lmd5, some it =>
         (match it.node with
          | .folder _ => true
          | .file _ rmt rsz rmd5 => !needsUpdate ch lmt lsz lmd5 rmt rsz rmd5)
       | .file _ _ _, none => false
       | .dir sub, some it =>
         (match it.node with
          | .file _ _ _ _ => true
          | .folder subRs => syncedE ch subRs sub)
       | .dir _, none => false)
    && syncedE ch rs rest
termination_by sizeOf ls
/-- Only listing calls: no create, update, upload or download. -/
def isListingCall : Call → Bool
  | .listChildren _ => true
  | .createFolder _ _ => false
  | .uploadNew _ _ => false
  | .updateFile _ => false
  | .download _ => false

def noMut (tr : List Call) : Bool := tr.all isListingCall

/-- The fault-free environment: every listing succeeds. -/
def noFailEnv : GEnv := ⟨fun _ => false⟩
/-- Local demo tree for the idempotence witness: one file needing an update
(size differs from its remote counterpart), one fresh subfolder with a file
needing a first upload. -/
def demoLocalTree : LEntries :=
  .cons "a.txt" (.file 5 3 (some "h1"))
    (.cons "sub" (.dir (.cons "b.txt" (.file 6 2 (some "h2")) .nil)) .nil)

/-- Remote demo tree for the idempotence witness. -/
def demoRemote : RItems :=
  .cons (.mk "f9" "a.txt" (.file "text" (some 100) (some 99) (some "zz"))) .nil
/-- Every call of the trace is a listing, and never of a placeholder id. -/
def dryCleanTr (tr : List Call) : Bool :=
  tr.all fun c =>
    match c with
    | .listChildren f => !strStarts f "dry_run_"
    | .createFolder _ _ => false
    | .uploadNew _ _ => false
    | .updateFile _ => false
    | .download _ => false

mutual
/-- No id stored in the remote tree carries the reserved dry-run marker. -/
def rnodeIdsClean : RNode → Bool
  | .file _ _ _ _ => true
  | .folder rs => ritemsIdsClean rs
def ritemsIdsClean : RItems → Bool
  | .nil => true
  | .cons it rest => ritemIdClean it && ritemsIdsClean rest
def ritemIdClean : RItem → Bool
  | .mk i _ nd => !strStarts i "dry_run_" && rnodeIdsClean nd
end
/-! ## The SyncManager variant (trace model)

`SyncManager.sync_to_drive(local_start_path, drive_target_folder_id)` lists
the target folder's children unconditionally on entry, builds a name → item
dict, and recurses into subfolders.  In dry-run mode a missing subfolder gets
the simulated id `"simulated_drive_folder_id_for_<name>"` and the recursion
proceeds with it — so the simulated id is handed to the next
`list_folder_contents` call.

This model records the trace of real remote client calls of one run.  The
remote tree is read-only within a run (mutations of this run never feed back
into its own reads; newly created folders are listed as empty), non-dry
uploads are abstracted to their resulting create/update call, and fresh
server ids for non-dry folder creation are rendered as
`"sm_created_for_<name>"` (opaque in reality). -/

/-- `f"simulated_drive_folder_id_for_{local_item_name}"` (line 142). -/
def smPlaceholder (n : String) : String := "simulated_drive_folder_id_for_" ++ n

mutual
/-- One call of `sync_to_drive`: the unconditional entry listing, then the
directory loop. -/
def smSyncToDrive (dryRun : Bool) (policy : ConflictPolicy) (fid : String)
    (rs : RItems) (ls : LEntries) : List Call :=
  Call.listChildren fid :: smEntries dryRun policy fid rs ls
termination_by (sizeOf ls, 1)

/-- `for local_item_name in os.listdir(local_start_path)` (no hidden-file or
junk filtering in this variant). -/
def smEntries (dryRun : Bool) (policy : ConflictPolicy) (fid : String)
    (rs : RItems) (ls : LEntries) : List Call :=
  match ls with
  | .nil => []
  | .cons n node rest =>
    smOne dryRun policy fid rs n node ++ smEntries dryRun policy fid rs rest
termination_by (sizeOf ls, 0)

/-- One local item of `sync_to_drive`. -/
def smOne (dryRun : Bool) (policy : ConflictPolicy) (fid : String)
    (rs : RItems) (n : String) (node : LNode) : List Call :=
  match node with
  | .dir sub =>
    match dmGet rs n with
    | some it =>
      match it.node with
      | .folder subRs => smSyncToDrive dryRun policy it.id subRs sub
      | .file _ _ _ _ => []   -- name collision warning; skip this item
    | none =>
      if dryRun then
        smSyncToDrive dryRun policy (smPlaceholder n) RItems.nil sub
      else
        Call.createFolder n fid ::
          smSyncToDrive dryRun policy ("sm_created_for_" ++ n) RItems.nil sub
  | .file lmt _ _ =>
    match dmGet rs n with
    | some it =>
      match it.node with
      | .folder _ => []   -- name collision warning; skip this item
      | .file _ rmt _ _ =>
        if (smUploadDecision policy lmt rmt).1 && !dryRun then
          [Call.updateFile it.id]
        else []
    | none => if !dryRun then [Call.uploadNew n fid] else []
termination_by (sizeOf node, 0)
end

/-- Spine induction for `RItems` (the `induction` tactic does not accept the
mutual recursor directly). -/
def RItems.spineRec {motive : RItems → Prop} (h0 : motive .nil)
    (h1 : ∀ it rest, motive rest → motive (.cons it rest)) : ∀ rs, motive rs
  | .nil => h0
  | .cons it rest => h1 it rest (RItems.spineRec h0 h1 rest)

/-- Spine induction for `LEntries`. -/
def LEntries.spineRec {motive : LEntries → Prop} (h0 : motive .nil)
    (h1 : ∀ n node rest, motive rest → motive (.cons n node rest)) : ∀ ls, motive ls
  | .nil => h0
  | .cons n node rest => h1 n node rest (LEntries.spineRec h0 h1 rest)

/-- Case analysis for `RItem`. -/
def RItem.casesRec {motive : RItem → Prop} (h : ∀ i n d, motive (.mk i n d)) :
    ∀ it, motive it
  | .mk i n d => h i n d

/-! ## The pull direction: SyncManager.sync_from_drive (local-effect model)

`sync_from_drive(drive_start_folder_id, local_target_path)` starts with an
unconditional `os.makedirs(local_target_path, exist_ok=True)` — before the
dry-run flag is ever consulted — then lists the remote children and walks
them: a remote subfolder is recursed into (after an explicit local mkdir only
when not in dry-run mode; the recursion happens regardless, and its entry
`makedirs` runs even in dry-run mode); a remote file is downloaded according
to `decidePull` unless a local directory shadows it or it is a Google
Workspace document (export not implemented).

The model threads the local filesystem (directory paths, file paths with
mtimes, a local clock stamped onto downloads) and records the local-effect
trace.  Paths are component lists. -/

/-- The local filesystem: existing directories, existing files with their
mtimes (`none` = `os.path.getmtime` fails), and the local clock. -/
structure LFS where
  dirs : List (List String)
  files : List (List String × Option Int)
  clock : Int

def lfsIsFile (fs : LFS) (p : List String) : Bool := (fs.files.map Prod.fst).contains p

def lfsIsDir (fs : LFS) (p : List String) : Bool := fs.dirs.contains p

/-- `os.path.exists`. -/
def lfsExists (fs : LFS) (p : List String) : Bool := lfsIsDir fs p || lfsIsFile fs p

/-- `get_local_file_mtime`. -/
def lfsMtime (fs : LFS) (p : List String) : Option Int :=
  match fs.files.find? (fun e => e.1 == p) with
  | some e => e.2
  | none => none

/-- `os.makedirs(p, exist_ok=True)`. -/
def lfsMkdirs (fs : LFS) (p : List String) : LFS := ⟨p :: fs.dirs, fs.files, fs.clock⟩

/-- A completed download writes the file and stamps it with the local clock. -/
def lfsAddFile (fs : LFS) (p : List String) : LFS :=
  ⟨fs.dirs, (p, some fs.clock) :: fs.files, fs.clock + 1⟩

/-- A local filesystem effect. -/
inductive Eff where
  | mkdirs : List String → Eff
  | download : String → List String → Eff
deriving DecidableEq, Repr

mutual
/-- One call of `sync_from_drive` on folder contents `rs`, pulling into
`target`. -/
def syncFromDrive (dry : Bool) (pol : ConflictPolicy) (fs : LFS) (rs : RItems)
    (target : List String) : LFS × List Eff :=
  let fs1 := lfsMkdirs fs target
  let r := pullItems dry pol fs1 rs target
  (r.1, Eff.mkdirs target :: r.2)
termination_by (sizeOf rs, 1)

/-- `for item in remote_items`. -/
def pullItems (dry : Bool) (pol : ConflictPolicy) (fs : LFS) (rs : RItems)
    (target : List String) : LFS × List Eff :=
  match rs with
  | .nil => (fs, [])
  | .cons it rest =>
    let s := pullOne dry pol fs it target
    let r := pullItems dry pol s.1 rest target
    (r.1, s.2 ++ r.2)
termination_by (sizeOf rs, 0)

/-- One remote item of `sync_from_drive`. -/
def pullOne (dry : Bool) (pol : ConflictPolicy) (fs : LFS) (it : RItem)
    (target : List String) : LFS × List Eff :=
  match it with
  | .mk iid name nd =>
    match nd with
    | .folder subRs =>
      if lfsExists fs (target ++ [name]) = false then
        if dry then
          -- "[DRY RUN] Would create local directory"; the unconditional
          -- recursion still runs, and its entry makedirs creates it for real
          syncFromDrive dry pol fs subRs (target ++ [name])
        else
          syncFromDrive dry pol (lfsMkdirs fs (target ++ [name])) subRs
            (target ++ [name])
      else if lfsIsDir fs (target ++ [name]) = false then
        (fs, [])   -- a local FILE shadows the remote folder; skip
      else
        syncFromDrive dry pol fs subRs (target ++ [name])
    | .file mime rmt _ _ =>
      let dl :=
        if lfsExists fs (target ++ [name]) then
          if lfsIsDir fs (target ++ [name]) then false   -- local dir shadows it
          else decidePull pol rmt (lfsMtime fs (target ++ [name]))
        else true
      if dl && !dry then
        if strStarts mime "application/vnd.google-apps" then
          (fs, [])   -- Google Workspace doc: export not implemented, skipped
        else
          (lfsAddFile (lfsMkdirs fs target) (target ++ [name]),
           [Eff.mkdirs target, Eff.download iid target])
      else (fs, [])
termination_by (sizeOf it, 0)
end

/-! ### Claims about the decision kernels -/

/-- **C1**. The push comparator's timestamp tier uses a fixed 2-second
tolerance: if the local mtime exceeds the remote mtime by strictly more than
2 seconds an update is scheduled (whatever the later tiers would say); if the
local mtime is newer by at most 2 seconds and the size and hash tiers find no
difference, no update is scheduled. -/
theorem upload_timestamp_tolerance (compareHashes : Bool) (rm : Int) (lsz : Nat)
    (lmd5 : Option String) (rsz : Option Nat) (rmd5 : Option String) (hv : String) :
    (∀ lm : Int, rm + 2 < lm →
      needsUpdate compareHashes lm lsz lmd5 (some rm) rsz rmd5 = true) ∧
    (∀ lm : Int, lm ≤ rm + 2 →
      needsUpdate compareHashes lm lsz (some hv) (some rm) (some lsz) (some hv) = false) := by
  constructor
  · intro lm h
    simp [needsUpdate, h]
  · intro lm h
    have h' : ¬ rm + 2 < lm := by omega
    cases compareHashes <;>
      simp [needsUpdate, h', sizeMismatch, hashMismatch]

/-- Witness for C1: with remote mtime 0, a local file 3 seconds newer is
updated; one exactly 1 second newer (equal size, equal md5) is not. -/
theorem upload_timestamp_tolerance_witness :
    needsUpdate true 3 5 (some "d41d8c") (some 0) (some 5) (some "d41d8c") = true ∧
    needsUpdate true 1 5 (some "d41d8c") (some 0) (some 5) (some "d41d8c") = false :=
  ⟨(upload_timestamp_tolerance true 0 5 (some "d41d8c") (some 5) (some "d41d8c") "d41d8c").1
      3 (by decide),
   (upload_timestamp_tolerance true 0 5 (some "d41d8c") (some 5) (some "d41d8c") "d41d8c").2
      1 (by decide)⟩

/-- **C6**. When the timestamps are within the 2-second tolerance and the
sizes are equal: with `compare_hashes` enabled, a digest mismatch schedules an
update and an uncomputable local digest also schedules an update; with
`compare_hashes` disabled the file is skipped. -/
theorem hash_tier_fallback (lm rm : Int) (sz : Nat) (lv rv : String)
    (htol : lm ≤ rm + 2) :
    (lv ≠ rv → needsUpdate true lm sz (some lv) (some rm) (some sz) (some rv) = true) ∧
    needsUpdate true lm sz none (some rm) (some sz) (some rv) = true ∧
    (∀ lmd5 rmd5, needsUpdate false lm sz lmd5 (some rm) (some sz) rmd5 = false) := by
  have h' : ¬ rm + 2 < lm := by omega
  refine ⟨fun hne => ?_, ?_, fun lmd5 rmd5 => ?_⟩
  · simp [needsUpdate, h', sizeMismatch, hashMismatch, hne]
  · simp [needsUpdate, h', sizeMismatch, hashMismatch]
  · simp [needsUpdate, h', sizeMismatch]

/-- Witness for C6 at a concrete input: same size, mtimes within tolerance,
different digests. -/
theorem hash_tier_fallback_witness :
    needsUpdate true 1 7 (some "aaa") (some 0) (some 7) (some "bbb") = true ∧
    needsUpdate true 1 7 none (some 0) (some 7) (some "bbb") = true ∧
    needsUpdate false 1 7 (some "aaa") (some 0) (some 7) (some "bbb") = false :=
  ⟨(hash_tier_fallback 1 0 7 "aaa" "bbb" (by decide)).1 (by decide),
   (hash_tier_fallback 1 0 7 "aaa" "bbb" (by decide)).2.1,
   (hash_tier_fallback 1 0 7 "aaa" "bbb" (by decide)).2.2 (some "aaa") (some "bbb")⟩

/-- **C7**. A remote file lacking a modified-time field is always scheduled
for update, regardless of the local file's mtime, size or content — both in
`upload_or_update_file` (gdrive_sync.py lines 325-327) and in
`SyncManager.sync_to_drive` (lines 196-199, where the decision is
`(perform_upload, update_existing) = (True, True)` for every policy). -/
theorem missing_remote_mtime_updates (compareHashes : Bool) (lm : Int) (lsz : Nat)
    (lmd5 : Option String) (rsz : Option Nat) (rmd5 : Option String)
    (policy : ConflictPolicy) :
    needsUpdate compareHashes lm lsz lmd5 none rsz rmd5 = true ∧
    smUploadDecision policy lm none = (true, true) :=
  ⟨rfl, rfl⟩

/-- **C5 counterexample**. Under `local_wins`, a remote file with *no*
modified time and an existing same-named local file (readable mtime 5) is
scheduled for download — the policy is not consulted, refuting "the download
decision is skip regardless of the local and remote timestamps (including
when the remote modified time is absent)". -/
theorem pull_local_wins_counterexample :
    decidePull ConflictPolicy.localWins none (some 5) = true := rfl

/-- **C5 amended**. Under `local_wins` the pull decision is skip whenever both
the remote and the local modified times are available, regardless of their
values; but when the remote modified time is absent, or the local mtime
cannot be read, a download is scheduled irrespective of the policy. -/
theorem pull_local_wins_amended (rm lm : Int) :
    decidePull ConflictPolicy.localWins (some rm) (some lm) = false ∧
    decidePull ConflictPolicy.localWins none (some lm) = true ∧
    decidePull ConflictPolicy.localWins (some rm) none = true :=
  ⟨rfl, rfl, rfl⟩


/-! ## Lemmas about name resolution -/



@[simp] theorem RItem.id_mk (i n : String) (d : RNode) : (RItem.mk i n d).id = i := rfl

@[simp] theorem RItem.name_mk (i n : String) (d : RNode) : (RItem.mk i n d).name = n := rfl

@[simp] theorem RItem.node_mk (i n : String) (d : RNode) : (RItem.mk i n d).node = d := rfl

theorem RItem.eta (it : RItem) : it = .mk it.id it.name it.node := by
  induction it using RItem.casesRec with
  | h i n d => rfl


theorem containsName_eq_isSome (rs : RItems) (n : String) :
    containsName rs n = (listLast rs.toList n).isSome := by
  induction rs using RItems.spineRec with
  | h0 => rfl
  | h1 it rest ih =>
    simp only [containsName, RItems.toList, listLast]
    cases h : listLast rest.toList n <;> simp_all [beq_iff_eq]
    by_cases hn : it.name = n <;> simp_all

theorem lastNamed_eq_listLast (rs : RItems) (n : String) :
    lastNamed rs n = listLast rs.toList n := by
  induction rs using RItems.spineRec with
  | h0 => rfl
  | h1 it rest ih =>
    simp only [lastNamed, RItems.toList, listLast, containsName_eq_isSome]
    cases h : listLast rest.toList n <;> simp_all

theorem mapGet_insertItem (m : List (String × RItem)) (it : RItem) (n : String) :
    mapGet (insertItem m it) n = if it.name = n then some it else mapGet m n := by
  induction m with
  | nil => simp [insertItem, mapGet]
  | cons kv rest ih =>
    obtain ⟨k, v⟩ := kv
    simp only [insertItem]
    by_cases h1 : k = it.name <;> by_cases h2 : it.name = n <;>
      simp_all [mapGet]

theorem mapGet_foldl (l : List RItem) (m : List (String × RItem)) (n : String) :
    mapGet (l.foldl insertItem m) n =
      match listLast l n with
      | some x => some x
      | none => mapGet m n := by
  induction l generalizing m with
  | nil => rfl
  | cons it rest ih =>
    simp only [List.foldl_cons, listLast, ih, mapGet_insertItem]
    cases h : listLast rest n with
    | some x => rfl
    | none => by_cases h2 : it.name = n <;> simp [h2]

theorem dmGet_eq_lastNamed (rs : RItems) (n : String) :
    dmGet rs n = lastNamed rs n := by
  rw [lastNamed_eq_listLast]
  simp only [dmGet, buildMap, mapGet_foldl]
  cases listLast rs.toList n <;> rfl

theorem listLast_eq_getLast?_filter (l : List RItem) (n : String) :
    listLast l n = (l.filter (fun it => it.name == n)).getLast? := by
  induction l with
  | nil => rfl
  | cons it rest ih =>
    simp only [listLast, ih, List.filter_cons]
    by_cases h : it.name = n
    · simp only [h, beq_self_eq_true, if_pos trivial]
      cases hf : List.filter (fun it => it.name == n) rest with
      | nil => simp [hf, List.getLast?_nil]
      | cons b bs =>
        rw [List.getLast?_cons_cons]
        cases hg : (b :: bs).getLast? with
        | some x => simp [hg]
        | none => simp at hg
    · have : (it.name == n) = false := by simp [h]
      simp only [this, Bool.false_eq_true, if_false]
      cases hf : (List.filter (fun it => it.name == n) rest).getLast? <;> simp [h]

/-! ### Lemmas about mutation of a folder's children -/

theorem containsName_replaceLastNode (rs : RItems) (m n : String) (nd : RNode) :
    containsName (replaceLastNode rs m nd) n = containsName rs n := by
  induction rs using RItems.spineRec with
  | h0 => rfl
  | h1 it rest ih =>
    simp only [replaceLastNode]
    by_cases h1 : containsName rest m = true <;> by_cases h2 : it.name = m <;>
      simp_all [containsName, RItem.name, RItem.id]

theorem lastNamed_replaceLastNode_other (rs : RItems) (m n : String) (nd : RNode)
    (h : m ≠ n) :
    lastNamed (replaceLastNode rs m nd) n = lastNamed rs n := by
  induction rs using RItems.spineRec with
  | h0 => rfl
  | h1 it rest ih =>
    simp only [replaceLastNode]
    by_cases h1 : containsName rest m = true <;> by_cases h2 : it.name = m <;>
      simp_all [lastNamed, containsName_replaceLastNode, RItem.name, RItem.id]

theorem lastNamed_replaceLastNode_self (rs : RItems) (n : String) (nd : RNode)
    (it : RItem) (h : lastNamed rs n = some it) :
    lastNamed (replaceLastNode rs n nd) n = some (.mk it.id it.name nd) := by
  induction rs using RItems.spineRec with
  | h0 => exact absurd h (by simp [lastNamed])
  | h1 x rest ih =>
    simp only [replaceLastNode]
    by_cases h1 : containsName rest n = true
    · simp only [lastNamed, h1, if_pos] at h
      simp [lastNamed, containsName_replaceLastNode, h1, ih h]
    · simp only [lastNamed, h1, Bool.false_eq_true, if_false] at h
      by_cases h2 : x.name = n
      · simp only [h2, if_pos trivial] at h
        injection h with h
        subst h
        simp [lastNamed, h1, h2, containsName_replaceLastNode]
      · simp [h2] at h

theorem replaceLastNode_self (rs : RItems) (n : String) (it : RItem)
    (h : lastNamed rs n = some it) :
    replaceLastNode rs n it.node = rs := by
  induction rs using RItems.spineRec with
  | h0 => rfl
  | h1 x rest ih =>
    simp only [replaceLastNode]
    by_cases h1 : containsName rest n = true
    · simp only [lastNamed, h1, if_pos] at h
      simp [h1, ih h]
    · simp only [lastNamed, h1, Bool.false_eq_true, if_false] at h
      by_cases h2 : x.name = n
      · simp only [h2, if_pos trivial] at h
        injection h with h
        subst h
        simp only [h1, Bool.false_eq_true, if_false, h2, if_pos trivial]
        rw [← h2, ← RItem.eta]
      · simp [h2] at h

theorem containsName_push (rs : RItems) (it : RItem) (n : String) :
    containsName (rs.push it) n = ((it.name == n) || containsName rs n) := by
  induction rs using RItems.spineRec with
  | h0 => simp [RItems.push, containsName]
  | h1 x rest ih =>
    simp only [RItems.push, containsName, ih]
    cases it.name == n <;> cases x.name == n <;> simp_all

theorem lastNamed_push (rs : RItems) (it : RItem) (n : String) :
    lastNamed (rs.push it) n = if it.name = n then some it else lastNamed rs n := by
  induction rs using RItems.spineRec with
  | h0 =>
    simp only [RItems.push, lastNamed, containsName]
    by_cases h : it.name = n <;> simp [h]
  | h1 x rest ih =>
    simp only [RItems.push, lastNamed, containsName_push, ih]
    by_cases h : it.name = n
    · simp [h]
    · have : (it.name == n) = false := by simp [h]
      simp only [this, Bool.false_or, h, if_false]

/-! ### Claim C4 -/

/-- **C4 counterexample**. A remote folder listing holds two items named
`"a"` (ids `"id1"` then `"id2"` in listing order).  The walker's per-folder
dict (`dmGet`, built at sync_directory_recursive lines 392-393) resolves
`"a"` to the *last* match `"id2"`, while `find_drive_item` returns the first
match `"id1"`: the engine does not always take the first match. -/
theorem first_match_counterexample :
    (dmGet (.cons (.mk "id1" "a" (.file "" (some 1) (some 1) none))
        (.cons (.mk "id2" "a" (.file "" (some 2) (some 2) none)) .nil)) "a").map RItem.id
      = some "id2" ∧
    (find_drive_item (.cons (.mk "id1" "a" (.file "" (some 1) (some 1) none))
        (.cons (.mk "id2" "a" (.file "" (some 2) (some 2) none)) .nil)) "a").map RItem.id
      = some "id1" ∧
    ("id2" : String) ≠ "id1" := by
  refine ⟨rfl, rfl, by decide⟩

/-- **C4 amended**. Name resolution is best-effort but split:
`find_drive_item` and `get_item_id` return the *first* item of the listing
with the requested name, while the tree walker's per-folder name → item dict
resolves a name to the *last* item of the listing carrying it. -/
theorem first_match_amended (rs : RItems) (n : String) :
    find_drive_item rs n = (queryByName rs n).head? ∧
    get_item_id rs n = ((queryByName rs n).head?).map RItem.id ∧
    dmGet rs n = (queryByName rs n).getLast? := by
  refine ⟨rfl, rfl, ?_⟩
  rw [dmGet_eq_lastNamed, lastNamed_eq_listLast, listLast_eq_getLast?_filter]
  rfl

/-! ### Claims C8 and C9 -/

/-- **C8**. A name collision between a local file and a same-named remote
folder, or a local directory and a same-named remote file, makes the walker
skip that item entirely: no upload, update or create call is issued for it,
there is no descent into it, and the remaining siblings are processed exactly
as they would have been without it (the walk on the rest of the entries
starts from an unchanged remote state, server state and empty trace
contribution).  The same holds for `SyncManager.sync_to_drive` (last two
conjuncts, over its call trace). -/
theorem conflict_clash_skips_item (cfg : GCfg) (env : GEnv) (srv : Srv) (fid : String)
    (rs : RItems) (mp : List (String × RItem)) (n : String) (rest : LEntries)
    (dry : Bool) (pol : ConflictPolicy)
    (hskip : skipLocalName n = false) :
    (∀ (lmt : Int) (lsz : Nat) (lmd5 : Option String) (it : RItem) (sub' : RItems),
      mapGet mp n = some it → it.node = .folder sub' →
      syncEntriesG cfg env srv fid rs mp (.cons n (.file lmt lsz lmd5) rest)
        = syncEntriesG cfg env srv fid rs mp rest) ∧
    (∀ (sub : LEntries) (it : RItem) (rmime : String) (rmt : Option Int)
        (rsz : Option Nat) (rmd5 : Option String),
      mapGet mp n = some it → it.node = .file rmime rmt rsz rmd5 →
      syncEntriesG cfg env srv fid rs mp (.cons n (.dir sub) rest)
        = syncEntriesG cfg env srv fid rs mp rest) ∧
    (∀ (lmt : Int) (lsz : Nat) (lmd5 : Option String) (it : RItem) (sub' : RItems),
      dmGet rs n = some it → it.node = .folder sub' →
      smEntries dry pol fid rs (.cons n (.file lmt lsz lmd5) rest)
        = smEntries dry pol fid rs rest) ∧
    (∀ (sub : LEntries) (it : RItem) (rmime : String) (rmt : Option Int)
        (rsz : Option Nat) (rmd5 : Option String),
      dmGet rs n = some it → it.node = .file rmime rmt rsz rmd5 →
      smEntries dry pol fid rs (.cons n (.dir sub) rest)
        = smEntries dry pol fid rs rest) := by
  refine ⟨?_, ?_, ?_, ?_⟩
  · intro lmt lsz lmd5 it sub' h1 h2
    rw [syncEntriesG]
    simp only [hskip, Bool.false_eq_true, if_false, syncOneG, h1, h2]
    obtain ⟨a, b, c⟩ := syncEntriesG cfg env srv fid rs mp rest
    rfl
  · intro sub it rmime rmt rsz rmd5 h1 h2
    rw [syncEntriesG]
    simp only [hskip, Bool.false_eq_true, if_false, syncOneG, h1, h2]
    obtain ⟨a, b, c⟩ := syncEntriesG cfg env srv fid rs mp rest
    rfl
  · intro lmt lsz lmd5 it sub' h1 h2
    rw [smEntries, smOne, h1]
    dsimp only
    rw [h2]
    exact List.nil_append _
  · intro sub it rmime rmt rsz rmd5 h1 h2
    rw [smEntries, smOne, h1]
    dsimp only
    rw [h2]
    exact List.nil_append _

/-- Witness for C8: a local file `"x"` clashing with a remote folder `"x"`
contributes nothing, and the sibling entries are processed identically. -/
theorem conflict_clash_skips_item_witness :
    skipLocalName "x" = false ∧
    syncEntriesG ⟨false, true⟩ ⟨fun _ => false⟩ ⟨0, 0⟩ "r" .nil
        [("x", .mk "i1" "x" (.folder .nil))]
        (.cons "x" (.file 0 0 none) (.cons "y.txt" (.file 0 1 (some "h")) .nil))
      = syncEntriesG ⟨false, true⟩ ⟨fun _ => false⟩ ⟨0, 0⟩ "r" .nil
        [("x", .mk "i1" "x" (.folder .nil))]
        (.cons "y.txt" (.file 0 1 (some "h")) .nil) :=
  ⟨by decide,
   (conflict_clash_skips_item ⟨false, true⟩ ⟨fun _ => false⟩ ⟨0, 0⟩ "r" .nil
      [("x", .mk "i1" "x" (.folder .nil))] "x"
      (.cons "y.txt" (.file 0 1 (some "h")) .nil) false .newerWins (by decide)).1
     0 0 none (.mk "i1" "x" (.folder .nil)) .nil rfl rfl⟩

/-- **C9**. When listing the remote children of one subfolder fails, only
that subfolder's contents are skipped: the visit emits the attempted listing
call, leaves the remote and server state untouched, and the remaining sibling
entries are processed exactly as from the original state — the traversal is
not aborted. -/
theorem listing_failure_isolated (ch : Bool) (env : GEnv) (srv : Srv) (pid : String)
    (rs : RItems) (n : String) (sub rest : LEntries) (it : RItem) (subRs : RItems)
    (hskip : skipLocalName n = false)
    (hpid : env.failList pid = false)
    (hlook : dmGet rs n = some it)
    (hnode : it.node = .folder subRs)
    (hfail : env.failList it.id = true) :
    syncDirG ⟨false, ch⟩ env srv pid rs (.cons n (.dir sub) rest)
      = ⟨(syncEntriesG ⟨false, ch⟩ env srv pid rs (buildMap rs) rest).rs,
         (syncEntriesG ⟨false, ch⟩ env srv pid rs (buildMap rs) rest).srv,
         Call.listChildren pid :: Call.listChildren it.id ::
           (syncEntriesG ⟨false, ch⟩ env srv pid rs (buildMap rs) rest).tr⟩ := by
  have hrepl : replaceLastNode rs n (.folder subRs) = rs := by
    have := replaceLastNode_self rs n it (by rw [← dmGet_eq_lastNamed]; exact hlook)
    rwa [hnode] at this
  rw [syncDirG]
  simp only [Bool.false_and, Bool.false_eq_true, if_false, hpid]
  rw [syncEntriesG]
  simp only [hskip, Bool.false_eq_true, if_false, syncOneG]
  rw [show mapGet (buildMap rs) n = some it from hlook]
  simp only [hnode]
  rw [syncDirG]
  simp only [Bool.false_and, Bool.false_eq_true, if_false, hfail, if_pos trivial, hrepl,
    List.singleton_append]

/-- Witness for C9: listing of subfolder id `"bad"` fails; the sibling file
`"e.txt"` is still compared (and found up to date). -/
theorem listing_failure_isolated_witness :
    syncDirG ⟨false, true⟩ ⟨fun s => s == "bad"⟩ ⟨9, 0⟩ "p"
        (.cons (.mk "bad" "d" (.folder .nil))
          (.cons (.mk "g" "e.txt" (.file "" (some 9) (some 1) (some "h"))) .nil))
        (.cons "d" (.dir .nil) (.cons "e.txt" (.file 0 1 (some "h")) .nil))
      = ⟨(syncEntriesG ⟨false, true⟩ ⟨fun s => s == "bad"⟩ ⟨9, 0⟩ "p"
            (.cons (.mk "bad" "d" (.folder .nil))
              (.cons (.mk "g" "e.txt" (.file "" (some 9) (some 1) (some "h"))) .nil))
            (buildMap (.cons (.mk "bad" "d" (.folder .nil))
              (.cons (.mk "g" "e.txt" (.file "" (some 9) (some 1) (some "h"))) .nil)))
            (.cons "e.txt" (.file 0 1 (some "h")) .nil)).rs,
         (syncEntriesG ⟨false, true⟩ ⟨fun s => s == "bad"⟩ ⟨9, 0⟩ "p"
            (.cons (.mk "bad" "d" (.folder .nil))
              (.cons (.mk "g" "e.txt" (.file "" (some 9) (some 1) (some "h"))) .nil))
            (buildMap (.cons (.mk "bad" "d" (.folder .nil))
              (.cons (.mk "g" "e.txt" (.file "" (some 9) (some 1) (some "h"))) .nil)))
            (.cons "e.txt" (.file 0 1 (some "h")) .nil)).srv,
         Call.listChildren "p" :: Call.listChildren "bad" ::
           (syncEntriesG ⟨false, true⟩ ⟨fun s => s == "bad"⟩ ⟨9, 0⟩ "p"
              (.cons (.mk "bad" "d" (.folder .nil))
                (.cons (.mk "g" "e.txt" (.file "" (some 9) (some 1) (some "h"))) .nil))
              (buildMap (.cons (.mk "bad" "d" (.folder .nil))
                (.cons (.mk "g" "e.txt" (.file "" (some 9) (some 1) (some "h"))) .nil)))
              (.cons "e.txt" (.file 0 1 (some "h")) .nil)).tr⟩ :=
  listing_failure_isolated true ⟨fun s => s == "bad"⟩ ⟨9, 0⟩ "p" _ "d" .nil
    (.cons "e.txt" (.file 0 1 (some "h")) .nil)
    (.mk "bad" "d" (.folder .nil)) .nil (by decide) rfl rfl rfl rfl

/-! ## Idempotence of the walk (claim C3)

A second walk over unchanged trees issues only listing calls.  The proof goes
through an invariant `syncedE`: after the first walk, every non-skipped local
entry has a same-named remote item that either type-clashes (so both runs
skip it) or compares as up to date. -/


mutual
def lnodeMtLE_mono (c c' : Int) (h : c ≤ c') (node : LNode)
    (hn : lnodeMtLE c node = true) : lnodeMtLE c' node = true := by
  cases node with
  | file mt sz md5 =>
    simp only [lnodeMtLE, decide_eq_true_eq] at hn ⊢
    omega
  | dir sub => exact lentriesMtLE_mono c c' h sub hn
def lentriesMtLE_mono (c c' : Int) (h : c ≤ c') (ls : LEntries)
    (hn : lentriesMtLE c ls = true) : lentriesMtLE c' ls = true := by
  cases ls with
  | nil => rfl
  | cons n node rest =>
    simp only [lentriesMtLE, Bool.and_eq_true] at hn ⊢
    exact ⟨lnodeMtLE_mono c c' h node hn.1, lentriesMtLE_mono c c' h rest hn.2⟩
end


/-- A freshly written remote file (mtime stamped with the server clock, size
and md5 mirroring the local file) compares as up to date against that local
file whenever the local mtime is not in the server's future. -/
theorem needsUpdate_after_write (ch : Bool) (lmt : Int) (lsz : Nat) (v : String)
    (rmime : String) (c : Int) (h : lmt ≤ c) :
    needsUpdate ch lmt lsz (some v) (some c) (some lsz) (some v) = false := by
  have h' : ¬ c + 2 < lmt := by omega
  cases ch <;> simp [needsUpdate, h', sizeMismatch, hashMismatch]

theorem lastNamed_name (rs : RItems) (n : String) (it : RItem)
    (h : lastNamed rs n = some it) : it.name = n := by
  induction rs using RItems.spineRec with
  | h0 => simp [lastNamed] at h
  | h1 x rest ih =>
    simp only [lastNamed] at h
    by_cases h1 : containsName rest n = true
    · simp only [h1, if_pos] at h
      exact ih h
    · simp only [h1, Bool.false_eq_true, if_false] at h
      by_cases h2 : x.name = n
      · simp only [h2, if_pos trivial] at h
        injection h with h
        subst h
        exact h2
      · simp [h2] at h

theorem syncedE_nil (ch : Bool) (rs : RItems) : syncedE ch rs .nil = true := by
  rw [syncedE.eq_def]

/-- The unfolding equation of `syncedE` on a cons. -/
theorem syncedE_cons_eq (ch : Bool) (rs : RItems) (n : String) (node : LNode)
    (rest : LEntries) :
    syncedE ch rs (.cons n node rest)
      = ((if skipLocalName n then true
          else
            match node, dmGet rs n with
            | .file lmt lsz lmd5, some it =>
              (match it.node with
               | .folder _ => true
               | .file _ rmt rsz rmd5 => !needsUpdate ch lmt lsz lmd5 rmt rsz rmd5)
            | .file _ _ _, none => false
            | .dir sub, some it =>
              (match it.node with
               | .file _ _ _ _ => true
               | .folder subRs => syncedE ch subRs sub)
            | .dir _, none => false)
         && syncedE ch rs rest) := by
  rw [syncedE.eq_def]

/-- The head conjunct of `syncedE` can be isolated as a singleton. -/
theorem syncedE_cons (ch : Bool) (rs : RItems) (n : String) (node : LNode)
    (rest : LEntries) :
    syncedE ch rs (.cons n node rest)
      = (syncedE ch rs (.cons n node .nil) && syncedE ch rs rest) := by
  rw [syncedE_cons_eq, syncedE_cons_eq, syncedE_nil, Bool.and_true]

/-- The singleton invariant only looks at the resolution of its own name. -/
theorem syncedE_single_congr (ch : Bool) (rs1 rs2 : RItems) (n : String)
    (node : LNode) (h : lastNamed rs2 n = lastNamed rs1 n) :
    syncedE ch rs1 (.cons n node .nil) = syncedE ch rs2 (.cons n node .nil) := by
  rw [syncedE_cons_eq, syncedE_cons_eq, syncedE_nil, syncedE_nil]
  simp only [dmGet_eq_lastNamed, h]


mutual
/-- A visit of a synced directory changes nothing and issues only listings. -/
def secondVisitClean (ch : Bool) (srv : Srv) (fid : String) (rs : RItems)
    (ls : LEntries) (h : syncedE ch rs ls = true) :
    (syncDirG ⟨false, ch⟩ noFailEnv srv fid rs ls).rs = rs ∧
    (syncDirG ⟨false, ch⟩ noFailEnv srv fid rs ls).srv = srv ∧
    noMut (syncDirG ⟨false, ch⟩ noFailEnv srv fid rs ls).tr = true := by
  rw [syncDirG]
  simp only [Bool.false_and, Bool.false_eq_true, if_false, noFailEnv]
  have he := secondEntriesClean ch srv fid rs ls h
  exact ⟨he.1, he.2.1, by simp [noMut, isListingCall, noMut] at he ⊢; exact he.2.2⟩
termination_by (sizeOf ls, 1)

/-- The entry loop over a synced level changes nothing and issues only
listings. -/
def secondEntriesClean (ch : Bool) (srv : Srv) (fid : String) (rs : RItems)
    (ls : LEntries) (h : syncedE ch rs ls = true) :
    (syncEntriesG ⟨false, ch⟩ noFailEnv srv fid rs (buildMap rs) ls).rs = rs ∧
    (syncEntriesG ⟨false, ch⟩ noFailEnv srv fid rs (buildMap rs) ls).srv = srv ∧
    noMut (syncEntriesG ⟨false, ch⟩ noFailEnv srv fid rs (buildMap rs) ls).tr = true := by
  cases ls with
  | nil =>
    rw [syncEntriesG]
    exact ⟨rfl, rfl, rfl⟩
  | cons n node rest =>
    rw [syncedE_cons, Bool.and_eq_true] at h
    rw [syncEntriesG]
    by_cases hskip : skipLocalName n = true
    · simp only [hskip, if_pos trivial]
      exact secondEntriesClean ch srv fid rs rest h.2
    · have hskip' : skipLocalName n = false := by
        cases hval : skipLocalName n
        · rfl
        · exact absurd hval hskip
      simp only [hskip', Bool.false_eq_true, if_false]
      have h1 := secondOneClean ch srv fid rs n node hskip' h.1
      rw [h1.1, h1.2.1]
      have h2 := secondEntriesClean ch srv fid rs rest h.2
      refine ⟨h2.1, h2.2.1, ?_⟩
      simp only [noMut, List.all_append, Bool.and_eq_true]
      exact ⟨h1.2.2, h2.2.2⟩
termination_by (sizeOf ls, 0)

/-- One synced entry is a no-op for the walker. -/
def secondOneClean (ch : Bool) (srv : Srv) (fid : String) (rs : RItems)
    (n : String) (node : LNode) (hskip : skipLocalName n = false)
    (h : syncedE ch rs (.cons n node .nil) = true) :
    (syncOneG ⟨false, ch⟩ noFailEnv srv fid rs (buildMap rs) n node).rs = rs ∧
    (syncOneG ⟨false, ch⟩ noFailEnv srv fid rs (buildMap rs) n node).srv = srv ∧
    noMut (syncOneG ⟨false, ch⟩ noFailEnv srv fid rs (buildMap rs) n node).tr = true := by
  rw [syncedE_cons_eq, syncedE_nil, Bool.and_true] at h
  simp only [hskip, Bool.false_eq_true, if_false] at h
  cases node with
  | file lmt lsz lmd5 =>
    rw [syncOneG]
    cases hl : dmGet rs n with
    | none => simp [hl] at h
    | some it =>
      rw [show mapGet (buildMap rs) n = some it from hl]
      dsimp only
      simp only [hl] at h
      cases hnode : it.node with
      | folder subRs' => refine ⟨?_, ?_, ?_⟩ <;> trivial
      | file rmime rmt rsz rmd5 =>
        rw [hnode] at h
        have hnu : needsUpdate ch lmt lsz lmd5 rmt rsz rmd5 = false := by
          simpa using h
        dsimp only
        simp only [hnu, Bool.false_eq_true, if_false]
        refine ⟨?_, ?_, ?_⟩ <;> trivial
  | dir sub =>
    rw [syncOneG]
    cases hl : dmGet rs n with
    | none => simp [hl] at h
    | some it =>
      rw [show mapGet (buildMap rs) n = some it from hl]
      dsimp only
      simp only [hl] at h
      cases hnode : it.node with
      | file rmime rmt rsz rmd5 => refine ⟨?_, ?_, ?_⟩ <;> trivial
      | folder subRs =>
        rw [hnode] at h
        have hv := secondVisitClean ch srv it.id subRs sub h
        dsimp only
        refine ⟨?_, hv.2.1, hv.2.2⟩
        rw [hv.1]
        have hlast : lastNamed rs n = some it := by
          rw [← dmGet_eq_lastNamed]
          exact hl
        have hself := replaceLastNode_self rs n it hlast
        rw [hnode] at hself
        exact hself
termination_by (sizeOf node, 0)
end

mutual
/-- A first fault-free, non-dry walk of a well-formed local tree (unique
names per level, computable digests, no file dated after the server clock)
leaves the visited directory synced; the server clock never decreases. -/
def firstVisitSynced (ch : Bool) (srv : Srv) (fid : String) (rs : RItems)
    (ls : LEntries) (hwf : lentriesWF ls = true)
    (hmt : lentriesMtLE srv.clock ls = true) :
    srv.clock ≤ (syncDirG ⟨false, ch⟩ noFailEnv srv fid rs ls).srv.clock ∧
    syncedE ch (syncDirG ⟨false, ch⟩ noFailEnv srv fid rs ls).rs ls = true := by
  rw [syncDirG]
  simp only [Bool.false_and, Bool.false_eq_true, if_false, noFailEnv]
  have he := firstEntriesSynced ch srv fid rs (buildMap rs) ls hwf hmt
    (fun m _ => dmGet_eq_lastNamed rs m)
  exact ⟨he.1, he.2.2⟩
termination_by (sizeOf ls, 1)

/-- Entry loop of the first walk: the clock grows, names not present locally
keep their resolution, and the processed level ends up synced. -/
def firstEntriesSynced (ch : Bool) (srv : Srv) (fid : String) (rs : RItems)
    (mp : List (String × RItem)) (ls : LEntries)
    (hwf : lentriesWF ls = true) (hmt : lentriesMtLE srv.clock ls = true)
    (hmp : ∀ m, (localNames ls).contains m = true → mapGet mp m = lastNamed rs m) :
    srv.clock ≤ (syncEntriesG ⟨false, ch⟩ noFailEnv srv fid rs mp ls).srv.clock ∧
    (∀ m, (localNames ls).contains m = false →
      lastNamed (syncEntriesG ⟨false, ch⟩ noFailEnv srv fid rs mp ls).rs m
        = lastNamed rs m) ∧
    syncedE ch (syncEntriesG ⟨false, ch⟩ noFailEnv srv fid rs mp ls).rs ls = true := by
  cases ls with
  | nil =>
    rw [syncEntriesG]
    exact ⟨le_refl _, fun m _ => rfl, syncedE_nil ch rs⟩
  | cons n node rest =>
    rw [show lentriesWF (.cons n node rest)
        = (!(localNames rest).contains n && lnodeWF node && lentriesWF rest)
      from rfl, Bool.and_eq_true, Bool.and_eq_true] at hwf
    obtain ⟨⟨hdup, hnwf⟩, hrwf⟩ := hwf
    rw [Bool.not_eq_true'] at hdup
    rw [show lentriesMtLE srv.clock (.cons n node rest)
        = (lnodeMtLE srv.clock node && lentriesMtLE srv.clock rest)
      from rfl, Bool.and_eq_true] at hmt
    obtain ⟨hnmt, hrmt⟩ := hmt
    have hmpcons : ∀ m, (localNames rest).contains m = true
        → mapGet mp m = lastNamed rs m := by
      intro m hm
      refine hmp m ?_
      have hmem : m ∈ localNames rest := by simpa using hm
      simp [localNames, hmem]
    rw [syncEntriesG]
    by_cases hskip : skipLocalName n = true
    · simp only [hskip, if_pos trivial]
      have ih := firstEntriesSynced ch srv fid rs mp rest hrwf hrmt hmpcons
      refine ⟨ih.1, ?_, ?_⟩
      · intro m hm
        simp only [localNames, List.contains_cons, Bool.or_eq_false_iff] at hm
        exact ih.2.1 m hm.2
      · rw [syncedE_cons]
        have hsingle : syncedE ch
            (syncEntriesG ⟨false, ch⟩ noFailEnv srv fid rs mp rest).rs
            (.cons n node .nil) = true := by
          rw [syncedE_cons_eq, syncedE_nil, Bool.and_true, hskip]
          rfl
        rw [hsingle, ih.2.2, Bool.and_true]
    · have hskip' : skipLocalName n = false := by
        cases hval : skipLocalName n
        · rfl
        · exact absurd hval hskip
      simp only [hskip', Bool.false_eq_true, if_false]
      have hone := firstOneSynced ch srv fid rs mp n node hskip' hnwf hnmt
        (hmp n (by simp [localNames, List.contains_cons]))
      have ih := firstEntriesSynced ch
        (syncOneG ⟨false, ch⟩ noFailEnv srv fid rs mp n node).srv fid
        (syncOneG ⟨false, ch⟩ noFailEnv srv fid rs mp n node).rs mp rest hrwf
        (lentriesMtLE_mono _ _ hone.1 rest hrmt)
        (by
          intro m hm
          have hne : m ≠ n := by
            intro hmn
            rw [hmn] at hm
            rw [hm] at hdup
            exact Bool.true_eq_false.mp hdup
          rw [hmpcons m hm, ← hone.2.1 m hne])
      refine ⟨le_trans hone.1 ih.1, ?_, ?_⟩
      · intro m hm
        simp only [localNames, List.contains_cons, Bool.or_eq_false_iff] at hm
        have hne : m ≠ n := by
          intro hmn
          subst hmn
          simp at hm
        exact (ih.2.1 m hm.2).trans (hone.2.1 m hne)
      · rw [syncedE_cons]
        have htransport := syncedE_single_congr ch
          (syncOneG ⟨false, ch⟩ noFailEnv srv fid rs mp n node).rs
          (syncEntriesG ⟨false, ch⟩ noFailEnv
            (syncOneG ⟨false, ch⟩ noFailEnv srv fid rs mp n node).srv fid
            (syncOneG ⟨false, ch⟩ noFailEnv srv fid rs mp n node).rs mp rest).rs
          n node (ih.2.1 n hdup)
        rw [← htransport, hone.2.2, ih.2.2, Bool.and_true]
termination_by (sizeOf ls, 0)

/-- One non-skipped entry of the first walk: the clock grows, the resolution
of every other name is untouched, and the entry itself ends up synced. -/
def firstOneSynced (ch : Bool) (srv : Srv) (fid : String) (rs : RItems)
    (mp : List (String × RItem)) (n : String) (node : LNode)
    (hskip : skipLocalName n = false) (hwf : lnodeWF node = true)
    (hmt : lnodeMtLE srv.clock node = true)
    (hmp : mapGet mp n = lastNamed rs n) :
    srv.clock ≤ (syncOneG ⟨false, ch⟩ noFailEnv srv fid rs mp n node).srv.clock ∧
    (∀ m, m ≠ n → lastNamed (syncOneG ⟨false, ch⟩ noFailEnv srv fid rs mp n node).rs m
        = lastNamed rs m) ∧
    syncedE ch (syncOneG ⟨false, ch⟩ noFailEnv srv fid rs mp n node).rs
      (.cons n node .nil) = true := by
  cases node with
  | file lmt lsz lmd5 =>
    obtain ⟨v, hv⟩ : ∃ v, lmd5 = some v := by
      cases lmd5 with
      | none => exact absurd hwf (by rw [show lnodeWF (.file lmt lsz none)
          = Option.isSome (none : Option String) from rfl]; simp)
      | some v => exact ⟨v, rfl⟩
    have hmtf : lmt ≤ srv.clock := by
      rw [show lnodeMtLE srv.clock (.file lmt lsz lmd5) = decide (lmt ≤ srv.clock)
        from rfl, decide_eq_true_eq] at hmt
      exact hmt
    subst hv
    rw [syncOneG]
    cases hl : lastNamed rs n with
    | none =>
      rw [show mapGet mp n = none from hmp.trans hl]
      dsimp only
      simp only [Bool.false_eq_true, if_false]
      refine ⟨by omega, ?_, ?_⟩
      · intro m hm
        rw [lastNamed_push]
        simp only [RItem.name_mk]
        rw [if_neg (fun hnm => hm hnm.symm)]
      · rw [syncedE_cons_eq, syncedE_nil, Bool.and_true, hskip]
        rw [if_neg (by simp), dmGet_eq_lastNamed, lastNamed_push]
        simp only [RItem.name_mk]
        rw [if_pos trivial]
        simp only [RItem.node_mk]
        rw [needsUpdate_after_write ch lmt lsz v "" srv.clock hmtf]
        rfl
    | some it =>
      rw [show mapGet mp n = some it from hmp.trans hl]
      dsimp only
      have hname : it.name = n := lastNamed_name rs n it hl
      cases hnode : it.node with
      | folder subRs' =>
        refine ⟨le_refl _, fun m _ => by trivial, ?_⟩
        rw [syncedE_cons_eq, syncedE_nil, Bool.and_true, hskip]
        rw [if_neg (by simp), dmGet_eq_lastNamed, hl]
        dsimp only
        rw [hnode]
      | file rmime rmt rsz rmd5 =>
        by_cases hnu : needsUpdate ch lmt lsz (some v) rmt rsz rmd5 = true
        · simp only [hnu, if_pos trivial, Bool.false_eq_true, if_false]
          refine ⟨by omega, ?_, ?_⟩
          · intro m hm
            exact lastNamed_replaceLastNode_other rs n m _ (fun h => hm h.symm)
          · rw [syncedE_cons_eq, syncedE_nil, Bool.and_true, hskip]
            rw [if_neg (by simp), dmGet_eq_lastNamed,
              lastNamed_replaceLastNode_self rs n _ it hl]
            simp only [RItem.node_mk]
            rw [needsUpdate_after_write ch lmt lsz v rmime srv.clock hmtf]
            rfl
        · have hnu' : needsUpdate ch lmt lsz (some v) rmt rsz rmd5 = false := by
            cases hval : needsUpdate ch lmt lsz (some v) rmt rsz rmd5
            · rfl
            · exact absurd hval hnu
          simp only [hnu', Bool.false_eq_true, if_false]
          refine ⟨le_refl _, fun m _ => by trivial, ?_⟩
          rw [syncedE_cons_eq, syncedE_nil, Bool.and_true, hskip]
          rw [if_neg (by simp), dmGet_eq_lastNamed, hl]
          dsimp only
          rw [hnode]
          dsimp only
          rw [hnu']
          rfl
  | dir sub =>
    have hwfs : lentriesWF sub = true := hwf
    have hmts : lentriesMtLE srv.clock sub = true := hmt
    rw [syncOneG]
    cases hl : lastNamed rs n with
    | none =>
      rw [show mapGet mp n = none from hmp.trans hl]
      dsimp only
      simp only [Bool.false_eq_true, if_false]
      have hvis := firstVisitSynced ch ⟨srv.clock + 1, srv.nextId + 1⟩
        (genId srv.nextId) RItems.nil sub hwfs
        (lentriesMtLE_mono srv.clock (srv.clock + 1) (by omega) sub hmts)
      refine ⟨le_trans (show srv.clock ≤ srv.clock + 1 by omega) hvis.1, ?_, ?_⟩
      · intro m hm
        rw [lastNamed_push]
        simp only [RItem.name_mk]
        rw [if_neg (fun hnm => hm hnm.symm)]
      · rw [syncedE_cons_eq, syncedE_nil, Bool.and_true, hskip]
        rw [if_neg (by simp), dmGet_eq_lastNamed, lastNamed_push]
        simp only [RItem.name_mk]
        rw [if_pos trivial]
        simp only [RItem.node_mk]
        exact hvis.2
    | some it =>
      rw [show mapGet mp n = some it from hmp.trans hl]
      dsimp only
      have hname : it.name = n := lastNamed_name rs n it hl
      cases hnode : it.node with
      | file rmime rmt rsz rmd5 =>
        refine ⟨le_refl _, fun m _ => by trivial, ?_⟩
        rw [syncedE_cons_eq, syncedE_nil, Bool.and_true, hskip]
        rw [if_neg (by simp), dmGet_eq_lastNamed, hl]
        dsimp only
        rw [hnode]
      | folder subRs =>
        have hvis := firstVisitSynced ch srv it.id subRs sub hwfs hmts
        refine ⟨hvis.1, ?_, ?_⟩
        · intro m hm
          exact lastNamed_replaceLastNode_other rs n m _ (fun h => hm h.symm)
        · rw [syncedE_cons_eq, syncedE_nil, Bool.and_true, hskip]
          rw [if_neg (by simp), dmGet_eq_lastNamed,
            lastNamed_replaceLastNode_self rs n _ it hl]
          simp only [RItem.node_mk]
          exact hvis.2
termination_by (sizeOf node, 0)
end

/-- **C3 amended**. Idempotence holds conditionally: after a fault-free,
non-dry-run walk of a well-formed local tree (unique names per directory,
computable content digests, no local file dated after the server clock)
completes, a second walk over the resulting trees — with no local or remote
change in between — issues only listing calls: zero create, update, upload
or download calls.  The unrestricted claim is false: a local file whose
mtime is more than 2 seconds ahead of the server clock is re-updated by
every run, because the remote `modifiedTime` is stamped by the server at
upload time and the timestamp tier fires again (see the counterexample). -/
theorem walk_idempotent (ch : Bool) (srv : Srv) (fid : String) (rs : RItems)
    (ls : LEntries) (hwf : lentriesWF ls = true)
    (hmt : lentriesMtLE srv.clock ls = true) :
    noMut (syncDirG ⟨false, ch⟩ noFailEnv
        (syncDirG ⟨false, ch⟩ noFailEnv srv fid rs ls).srv fid
        (syncDirG ⟨false, ch⟩ noFailEnv srv fid rs ls).rs ls).tr = true := by
  have h1 := firstVisitSynced ch srv fid rs ls hwf hmt
  exact (secondVisitClean ch _ fid _ ls h1.2).2.2


/-- Witness for C3 at a concrete input. -/
theorem walk_idempotent_witness :
    lentriesWF demoLocalTree = true ∧
    lentriesMtLE ((⟨50, 0⟩ : Srv)).clock demoLocalTree = true ∧
    noMut (syncDirG ⟨false, true⟩ noFailEnv
        (syncDirG ⟨false, true⟩ noFailEnv ⟨50, 0⟩ "root" demoRemote demoLocalTree).srv
        "root"
        (syncDirG ⟨false, true⟩ noFailEnv ⟨50, 0⟩ "root" demoRemote demoLocalTree).rs
        demoLocalTree).tr = true :=
  ⟨by decide, by decide,
   walk_idempotent true ⟨50, 0⟩ "root" demoRemote demoLocalTree (by decide) (by decide)⟩

/-- **C3 counterexample**. The unrestricted idempotence claim fails: a local
file with mtime 100 against server clock 0 (more than 2 seconds ahead) and
an empty remote folder.  The first fault-free walk completes successfully
(it lists the folder and uploads the file); with no change to either tree,
the second walk still issues `updateFile` — its trace is not free of
mutating calls. -/
theorem walk_idempotent_counterexample :
    (syncDirG ⟨false, false⟩ noFailEnv
        (syncDirG ⟨false, false⟩ noFailEnv ⟨0, 0⟩ "root" .nil
          (.cons "f.txt" (.file 100 1 none) .nil)).srv "root"
        (syncDirG ⟨false, false⟩ noFailEnv ⟨0, 0⟩ "root" .nil
          (.cons "f.txt" (.file 100 1 none) .nil)).rs
        (.cons "f.txt" (.file 100 1 none) .nil)).tr
      = [Call.listChildren "root", Call.updateFile (genId 0)] ∧
    noMut (syncDirG ⟨false, false⟩ noFailEnv
        (syncDirG ⟨false, false⟩ noFailEnv ⟨0, 0⟩ "root" .nil
          (.cons "f.txt" (.file 100 1 none) .nil)).srv "root"
        (syncDirG ⟨false, false⟩ noFailEnv ⟨0, 0⟩ "root" .nil
          (.cons "f.txt" (.file 100 1 none) .nil)).rs
        (.cons "f.txt" (.file 100 1 none) .nil)).tr = false := by
  have hskip : skipLocalName "f.txt" = false := by decide
  have h1 : syncDirG ⟨false, false⟩ noFailEnv ⟨0, 0⟩ "root" RItems.nil
      (.cons "f.txt" (.file 100 1 none) .nil)
      = ⟨.cons (.mk (genId 0) "f.txt" (.file "" (some 0) (some 1) none)) .nil,
         ⟨1, 1⟩, [Call.listChildren "root", Call.uploadNew "f.txt" "root"]⟩ := by
    rw [syncDirG]
    simp only [Bool.false_and, Bool.false_eq_true, if_false, noFailEnv]
    rw [syncEntriesG]
    simp only [hskip, Bool.false_eq_true, if_false]
    rw [syncOneG]
    rw [show mapGet (buildMap RItems.nil) "f.txt" = none from rfl]
    dsimp only
    simp only [Bool.false_eq_true, if_false]
    rw [syncEntriesG]
    rfl
  have h2 : syncDirG ⟨false, false⟩ noFailEnv ⟨1, 1⟩ "root"
      (.cons (.mk (genId 0) "f.txt" (.file "" (some 0) (some 1) none)) .nil)
      (.cons "f.txt" (.file 100 1 none) .nil)
      = ⟨.cons (.mk (genId 0) "f.txt" (.file "" (some 1) (some 1) none)) .nil,
         ⟨2, 1⟩, [Call.listChildren "root", Call.updateFile (genId 0)]⟩ := by
    rw [syncDirG]
    simp only [Bool.false_and, Bool.false_eq_true, if_false, noFailEnv]
    rw [syncEntriesG]
    simp only [hskip, Bool.false_eq_true, if_false]
    rw [syncOneG]
    rw [show mapGet (buildMap
        (.cons (.mk (genId 0) "f.txt" (.file "" (some 0) (some 1) none)) .nil)) "f.txt"
      = some (.mk (genId 0) "f.txt" (.file "" (some 0) (some 1) none)) from rfl]
    dsimp only
    simp only [RItem.node_mk, RItem.id_mk]
    rw [show needsUpdate false 100 1 none (some 0) (some 1) none = true from by decide]
    simp only [if_pos trivial, Bool.false_eq_true, if_false]
    rw [syncEntriesG]
    rfl
  rw [h1]
  dsimp only
  rw [h2]
  exact ⟨rfl, rfl⟩

/-! ## Dry-run placeholder discipline (claim C2)

In `gdrive_sync.py` every simulated id carries the reserved `"dry_run_"`
marker and the walker suppresses the listing for such folders.  We prove
that a dry-run walk (over a remote tree whose real ids do not carry the
marker) issues only listing calls, none of them for a placeholder id, and
treats a placeholder-identified folder's remote contents as empty.

`SyncManager.sync_to_drive`, however, recurses into its simulated folder id
and starts the recursive call with an unconditional
`list_folder_contents(drive_target_folder_id)` — the placeholder *is* passed
to the real remote client; see the counterexample below. -/

theorem isPrefixOf_append_of_isPrefixOf (l1 l2 t : List Char)
    (h : l1.isPrefixOf l2 = true) : l1.isPrefixOf (l2 ++ t) = true := by
  induction l1 generalizing l2 with
  | nil => simp
  | cons a as ih =>
    cases l2 with
    | nil => simp at h
    | cons b bs =>
      rw [List.cons_append]
      rw [List.isPrefixOf_cons₂] at h ⊢
      rw [Bool.and_eq_true] at h ⊢
      exact ⟨h.1, ih bs h.2⟩

theorem strStarts_dryFolderId (n : String) :
    strStarts (dryFolderId n) "dry_run_" = true := by
  rw [dryFolderId, strStarts, String.data_append]
  exact isPrefixOf_append_of_isPrefixOf _ _ _ (by decide)

theorem strStarts_dryFileId (n : String) :
    strStarts (dryFileId n) "dry_run_" = true := by
  rw [dryFileId, strStarts, String.data_append]
  exact isPrefixOf_append_of_isPrefixOf _ _ _ (by decide)


theorem lastNamed_idClean (rs : RItems) (n : String) (it : RItem)
    (hids : ritemsIdsClean rs = true) (h : lastNamed rs n = some it) :
    ritemIdClean it = true := by
  induction rs using RItems.spineRec with
  | h0 => simp [lastNamed] at h
  | h1 x rest ih =>
    rw [show ritemsIdsClean (.cons x rest) = (ritemIdClean x && ritemsIdsClean rest)
      from rfl, Bool.and_eq_true] at hids
    simp only [lastNamed] at h
    by_cases h1 : containsName rest n = true
    · simp only [h1, if_pos] at h
      exact ih hids.2 h
    · simp only [h1, Bool.false_eq_true, if_false] at h
      by_cases h2 : x.name = n
      · simp only [h2, if_pos trivial] at h
        injection h with h
        subst h
        exact hids.1
      · simp [h2] at h

mutual
/-- A dry-run visit leaves both trees and the server untouched, issues only
clean listing calls, and — for a placeholder folder id — no call at all. -/
def dryVisitClean (ch : Bool) (env : GEnv) (srv : Srv) (fid : String) (rs : RItems)
    (ls : LEntries) (hids : ritemsIdsClean rs = true) :
    ((syncDirG ⟨true, ch⟩ env srv fid rs ls).rs = rs ∧
     (syncDirG ⟨true, ch⟩ env srv fid rs ls).srv = srv) ∧
    dryCleanTr (syncDirG ⟨true, ch⟩ env srv fid rs ls).tr = true ∧
    (strStarts fid "dry_run_" = true → (syncDirG ⟨true, ch⟩ env srv fid rs ls).tr = []) := by
  rw [syncDirG]
  by_cases hfid : strStarts fid "dry_run_" = true
  · simp only [hfid, Bool.true_and, if_pos trivial]
    have he := dryEntriesClean ch env srv fid rs [] ls (by intro n it h; simp [mapGet] at h)
    exact ⟨he.1, he.2.1, fun _ => he.2.2 rfl⟩
  · have hfid' : strStarts fid "dry_run_" = false := by
      cases hval : strStarts fid "dry_run_"
      · rfl
      · exact absurd hval hfid
    simp only [hfid', Bool.and_false, Bool.false_eq_true, if_false]
    by_cases hfail : env.failList fid = true
    · simp only [hfail, if_pos trivial]
      refine ⟨⟨by trivial, by trivial⟩, ?_, fun hcontra => hcontra.elim⟩
      simp [dryCleanTr, hfid']
    · have hfail' : env.failList fid = false := by
        cases hval : env.failList fid
        · rfl
        · exact absurd hval hfail
      simp only [hfail', Bool.false_eq_true, if_false]
      have he := dryEntriesClean ch env srv fid rs (buildMap rs) ls
        (by
          intro n it h
          have hlast : lastNamed rs n = some it := by
            rw [← dmGet_eq_lastNamed]
            exact h
          exact ⟨lastNamed_idClean rs n it hids hlast, hlast⟩)
      refine ⟨he.1, ?_, fun hcontra => hcontra.elim⟩
      simp only [dryCleanTr, List.all_cons, Bool.and_eq_true]
      exact ⟨by simp [hfid'], he.2.1⟩
termination_by (sizeOf ls, 1)

/-- The dry-run entry loop: no state change, clean trace; with an empty map,
no call at all. -/
def dryEntriesClean (ch : Bool) (env : GEnv) (srv : Srv) (fid : String)
    (rs : RItems) (mp : List (String × RItem)) (ls : LEntries)
    (hmp : ∀ n it, mapGet mp n = some it →
      ritemIdClean it = true ∧ lastNamed rs n = some it) :
    ((syncEntriesG ⟨true, ch⟩ env srv fid rs mp ls).rs = rs ∧
     (syncEntriesG ⟨true, ch⟩ env srv fid rs mp ls).srv = srv) ∧
    dryCleanTr (syncEntriesG ⟨true, ch⟩ env srv fid rs mp ls).tr = true ∧
    (mp = [] → (syncEntriesG ⟨true, ch⟩ env srv fid rs mp ls).tr = []) := by
  cases ls with
  | nil =>
    rw [syncEntriesG]
    exact ⟨⟨rfl, rfl⟩, rfl, fun _ => rfl⟩
  | cons n node rest =>
    rw [syncEntriesG]
    by_cases hskip : skipLocalName n = true
    · simp only [hskip, if_pos trivial]
      exact dryEntriesClean ch env srv fid rs mp rest hmp
    · have hskip' : skipLocalName n = false := by
        cases hval : skipLocalName n
        · rfl
        · exact absurd hval hskip
      simp only [hskip', Bool.false_eq_true, if_false]
      have h1 := dryOneClean ch env srv fid rs mp n node hmp
      rw [h1.1.1, h1.1.2]
      have h2 := dryEntriesClean ch env srv fid rs mp rest hmp
      refine ⟨h2.1, ?_, ?_⟩
      · simp only [dryCleanTr, List.all_append, Bool.and_eq_true]
        exact ⟨h1.2.1, h2.2.1⟩
      · intro hnilmp
        rw [h1.2.2 hnilmp, h2.2.2 hnilmp, List.nil_append]
termination_by (sizeOf ls, 0)

/-- One dry-run entry: no state change, clean trace; with an empty map, no
call at all. -/
def dryOneClean (ch : Bool) (env : GEnv) (srv : Srv) (fid : String)
    (rs : RItems) (mp : List (String × RItem)) (n : String) (node : LNode)
    (hmp : ∀ n' it, mapGet mp n' = some it →
      ritemIdClean it = true ∧ lastNamed rs n' = some it) :
    ((syncOneG ⟨true, ch⟩ env srv fid rs mp n node).rs = rs ∧
     (syncOneG ⟨true, ch⟩ env srv fid rs mp n node).srv = srv) ∧
    dryCleanTr (syncOneG ⟨true, ch⟩ env srv fid rs mp n node).tr = true ∧
    (mp = [] → (syncOneG ⟨true, ch⟩ env srv fid rs mp n node).tr = []) := by
  cases node with
  | file lmt lsz lmd5 =>
    rw [syncOneG]
    cases hl : mapGet mp n with
    | none =>
      dsimp only
      refine ⟨⟨?_, ?_⟩, ?_, fun _ => ?_⟩ <;> trivial
    | some it =>
      dsimp only
      cases hnode : it.node with
      | folder subRs' => refine ⟨⟨?_, ?_⟩, ?_, fun _ => ?_⟩ <;> trivial
      | file rmime rmt rsz rmd5 =>
        by_cases hnu : needsUpdate ch lmt lsz lmd5 rmt rsz rmd5 = true
        · simp only [hnu, if_pos trivial]
          refine ⟨⟨?_, ?_⟩, ?_, fun _ => ?_⟩ <;> trivial
        · have hnu' : needsUpdate ch lmt lsz lmd5 rmt rsz rmd5 = false := by
            cases hval : needsUpdate ch lmt lsz lmd5 rmt rsz rmd5
            · rfl
            · exact absurd hval hnu
          simp only [hnu', Bool.false_eq_true, if_false]
          refine ⟨⟨?_, ?_⟩, ?_, fun _ => ?_⟩ <;> trivial
  | dir sub =>
    rw [syncOneG]
    cases hl : mapGet mp n with
    | none =>
      dsimp only
      have hvis := dryVisitClean ch env srv (dryFolderId n) RItems.nil sub rfl
      refine ⟨⟨rfl, hvis.1.2⟩, hvis.2.1, fun _ => ?_⟩
      exact hvis.2.2 (strStarts_dryFolderId n)
    | some it =>
      dsimp only
      obtain ⟨hclean, hlast⟩ := hmp n it hl
      cases hnode : it.node with
      | file rmime rmt rsz rmd5 => refine ⟨⟨?_, ?_⟩, ?_, fun _ => ?_⟩ <;> trivial
      | folder subRs =>
        rw [show ritemIdClean it
            = (!strStarts it.id "dry_run_" && rnodeIdsClean it.node)
          from by
            induction it using RItem.casesRec with
            | h i nm d => rfl, Bool.and_eq_true] at hclean
        rw [hnode] at hclean
        have hvis := dryVisitClean ch env srv it.id subRs sub hclean.2
        dsimp only
        refine ⟨⟨?_, hvis.1.2⟩, hvis.2.1, fun hnilmp => by rw [hnilmp] at hl; simp [mapGet] at hl⟩
        rw [hvis.1.1]
        have hself := replaceLastNode_self rs n it hlast
        rw [hnode] at hself
        exact hself
termination_by (sizeOf node, 0)
end

/-- **C2 amended**. In `gdrive_sync.py`: every placeholder id produced by the
simulated create/upload carries the reserved `"dry_run_"` marker; a dry-run
walk over a remote tree with clean ids issues only listing calls, never of a
placeholder id, and no mutating call at all; and for a folder whose id is a
placeholder the walker performs no listing and resolves names against an
empty map (its remote contents are treated as empty).  (The claim fails for
`SyncManager.sync_to_drive`: see the counterexample.) -/
theorem dry_run_placeholder_amended (ch : Bool) (env : GEnv) (srv : Srv)
    (fid : String) (rs : RItems) (ls : LEntries)
    (hids : ritemsIdsClean rs = true) :
    (∀ n, strStarts (dryFolderId n) "dry_run_" = true) ∧
    (∀ n, strStarts (dryFileId n) "dry_run_" = true) ∧
    dryCleanTr (syncDirG ⟨true, ch⟩ env srv fid rs ls).tr = true ∧
    (strStarts fid "dry_run_" = true →
      syncDirG ⟨true, ch⟩ env srv fid rs ls
        = syncEntriesG ⟨true, ch⟩ env srv fid rs [] ls) := by
  refine ⟨strStarts_dryFolderId, strStarts_dryFileId,
    (dryVisitClean ch env srv fid rs ls hids).2.1, ?_⟩
  intro hfid
  rw [syncDirG]
  simp only [hfid, Bool.true_and, if_pos trivial]

/-- Witness for C2 (amended) at concrete inputs. -/
theorem dry_run_placeholder_amended_witness :
    strStarts (dryFolderId "My Docs") "dry_run_" = true ∧
    strStarts (dryFileId "a b.txt") "dry_run_" = true ∧
    dryCleanTr (syncDirG ⟨true, true⟩ noFailEnv ⟨0, 0⟩ "root0" demoRemote
      demoLocalTree).tr = true ∧
    syncDirG ⟨true, true⟩ noFailEnv ⟨0, 0⟩ "dry_run_folder_id_for_x" demoRemote
        demoLocalTree
      = syncEntriesG ⟨true, true⟩ noFailEnv ⟨0, 0⟩ "dry_run_folder_id_for_x"
          demoRemote [] demoLocalTree :=
  ⟨(dry_run_placeholder_amended true noFailEnv ⟨0, 0⟩ "root0" demoRemote
      demoLocalTree (by decide)).1 "My Docs",
   (dry_run_placeholder_amended true noFailEnv ⟨0, 0⟩ "root0" demoRemote
      demoLocalTree (by decide)).2.1 "a b.txt",
   (dry_run_placeholder_amended true noFailEnv ⟨0, 0⟩ "root0" demoRemote
      demoLocalTree (by decide)).2.2.1,
   (dry_run_placeholder_amended true noFailEnv ⟨0, 0⟩ "dry_run_folder_id_for_x"
      demoRemote demoLocalTree (by decide)).2.2.2 (by decide)⟩


/-- **C2 counterexample**. A dry-run `sync_to_drive` of a local tree holding
one subfolder `"sub"` absent from the (empty) remote root: the recursion
hands the placeholder `"simulated_drive_folder_id_for_sub"` to the real
remote client's listing call — refuting "no placeholder identifier is ever
passed to the real remote client" and "for every folder whose id is a
placeholder the walker performs no real remote listing". -/
theorem dry_run_placeholder_counterexample :
    smSyncToDrive true ConflictPolicy.newerWins "rootsm" RItems.nil
        (.cons "sub" (.dir .nil) .nil)
      = [Call.listChildren "rootsm", Call.listChildren (smPlaceholder "sub")] ∧
    Call.listChildren (smPlaceholder "sub")
      ∈ smSyncToDrive true ConflictPolicy.newerWins "rootsm" RItems.nil
          (.cons "sub" (.dir .nil) .nil) ∧
    strStarts (smPlaceholder "sub") "simulated_" = true := by
  have htr : smSyncToDrive true ConflictPolicy.newerWins "rootsm" RItems.nil
      (.cons "sub" (.dir .nil) .nil)
      = [Call.listChildren "rootsm", Call.listChildren (smPlaceholder "sub")] := by
    rw [smSyncToDrive, smEntries, smOne, smEntries]
    rw [show dmGet RItems.nil "sub" = none from rfl]
    rw [smSyncToDrive, smEntries]
    rfl
  refine ⟨htr, ?_, by decide⟩
  rw [htr]
  simp

/-! ### Claim C10: a dry-run pull still creates local directories -/

theorem syncFromDrive_eq (dry : Bool) (pol : ConflictPolicy) (fs : LFS)
    (rs : RItems) (target : List String) :
    syncFromDrive dry pol fs rs target
      = ((pullItems dry pol (lfsMkdirs fs target) rs target).1,
         Eff.mkdirs target :: (pullItems dry pol (lfsMkdirs fs target) rs target).2) := by
  rw [syncFromDrive]

mutual
/-- A dry-run pull never touches local files (directories may be created,
files never). -/
def syncFromDriveFilesConst (pol : ConflictPolicy) (fs : LFS) (rs : RItems)
    (target : List String) :
    (syncFromDrive true pol fs rs target).1.files = fs.files := by
  rw [syncFromDrive_eq]
  exact pullItemsFilesConst pol (lfsMkdirs fs target) rs target
termination_by (sizeOf rs, 1)

def pullItemsFilesConst (pol : ConflictPolicy) (fs : LFS) (rs : RItems)
    (target : List String) :
    (pullItems true pol fs rs target).1.files = fs.files := by
  cases rs with
  | nil => rw [pullItems]
  | cons it rest =>
    rw [pullItems]
    dsimp only
    rw [pullItemsFilesConst pol (pullOne true pol fs it target).1 rest target]
    exact pullOneFilesConst pol fs it target
termination_by (sizeOf rs, 0)

def pullOneFilesConst (pol : ConflictPolicy) :
    ∀ (fs : LFS) (it : RItem) (target : List String),
      (pullOne true pol fs it target).1.files = fs.files
  | fs, .mk iid name (.folder subRs), target => by
    rw [pullOne]
    by_cases hex : lfsExists fs (target ++ [name]) = false
    · simp only [hex, if_pos trivial]
      exact syncFromDriveFilesConst pol fs subRs (target ++ [name])
    · have hex' : lfsExists fs (target ++ [name]) = true := by
        cases hval : lfsExists fs (target ++ [name])
        · exact absurd hval hex
        · rfl
      simp only [hex', Bool.true_eq_false, if_false]
      by_cases hdir : lfsIsDir fs (target ++ [name]) = false
      · simp only [hdir, if_pos trivial]
      · have hdir' : lfsIsDir fs (target ++ [name]) = true := by
          cases hval : lfsIsDir fs (target ++ [name])
          · exact absurd hval hdir
          · rfl
        simp only [hdir', Bool.true_eq_false, if_false]
        exact syncFromDriveFilesConst pol fs subRs (target ++ [name])
  | fs, .mk iid name (.file mime rmt rsz rmd5), target => by
    rw [pullOne]
    simp
termination_by fs it target => (sizeOf it, 0)
end

/-- Processing a remote folder item in dry-run mode performs a real
`makedirs` of its local path unless a local file shadows it: the recursion is
entered in every other case and its first action is the unconditional
`makedirs`. -/
theorem dryPullOneMkdirs (pol : ConflictPolicy) (fs : LFS) (it : RItem)
    (target : List String) (subRs : RItems) (hnode : it.node = .folder subRs)
    (hfile : lfsIsFile fs (target ++ [it.name]) = false) :
    Eff.mkdirs (target ++ [it.name]) ∈ (pullOne true pol fs it target).2 := by
  induction it using RItem.casesRec with
  | h iid name nd =>
    simp only [RItem.node_mk] at hnode
    simp only [RItem.name_mk] at hfile ⊢
    subst hnode
    rw [pullOne]
    by_cases hex : lfsExists fs (target ++ [name]) = false
    · simp only [hex, if_pos trivial]
      rw [syncFromDrive_eq]
      exact List.mem_cons_self _ _
    · have hex' : lfsExists fs (target ++ [name]) = true := by
        cases hval : lfsExists fs (target ++ [name])
        · exact absurd hval hex
        · rfl
      have hdir' : lfsIsDir fs (target ++ [name]) = true := by
        rw [lfsExists, hfile, Bool.or_false] at hex'
        exact hex'
      simp only [hex', Bool.true_eq_false, if_false, hdir', if_false]
      rw [syncFromDrive_eq]
      exact List.mem_cons_self _ _

/-- The item loop of a dry-run pull creates the local directory of every
remote folder item not shadowed by a local file. -/
def dryPullItemsMkdirs (pol : ConflictPolicy) :
    ∀ (rs : RItems) (fs : LFS) (target : List String) (it : RItem)
      (subRs : RItems), it ∈ rs.toList → it.node = .folder subRs →
      lfsIsFile fs (target ++ [it.name]) = false →
      Eff.mkdirs (target ++ [it.name]) ∈ (pullItems true pol fs rs target).2
  | .nil, fs, target, it, subRs, hmem, _, _ => by
    simp [RItems.toList] at hmem
  | .cons x rest, fs, target, it, subRs, hmem, hnode, hfile => by
    rw [pullItems]
    dsimp only
    rw [List.mem_append]
    rw [show RItems.toList (.cons x rest) = x :: rest.toList from rfl,
      List.mem_cons] at hmem
    rcases hmem with heq | hmem'
    · subst heq
      exact Or.inl (dryPullOneMkdirs pol fs it target subRs hnode hfile)
    · refine Or.inr ?_
      have hfile2 : lfsIsFile (pullOne true pol fs x target).1
          (target ++ [it.name]) = false := by
        rw [lfsIsFile, pullOneFilesConst pol fs x target]
        exact hfile
      exact dryPullItemsMkdirs pol rest (pullOne true pol fs x target).1 target
        it subRs hmem' hnode hfile2

/-- **C10**. `sync_from_drive` runs `os.makedirs(local_target_path,
exist_ok=True)` before listing the remote children, with no dry-run guard: a
dry-run pull really creates the local target directory, and, through the
unconditional recursion into every remote subfolder not shadowed by a local
file, the local directory of each such subfolder as well (while never
touching local files). -/
theorem dry_run_pull_creates_local_dirs (pol : ConflictPolicy) (fs : LFS)
    (rs : RItems) (target : List String) :
    Eff.mkdirs target ∈ (syncFromDrive true pol fs rs target).2 ∧
    (∀ (it : RItem) (subRs : RItems), it ∈ rs.toList → it.node = .folder subRs →
      lfsIsFile fs (target ++ [it.name]) = false →
      Eff.mkdirs (target ++ [it.name]) ∈ (syncFromDrive true pol fs rs target).2) ∧
    (syncFromDrive true pol fs rs target).1.files = fs.files := by
  refine ⟨?_, ?_, syncFromDriveFilesConst pol fs rs target⟩
  · rw [syncFromDrive_eq]
    exact List.mem_cons_self _ _
  · intro it subRs hmem hnode hfile
    rw [syncFromDrive_eq]
    refine List.mem_cons_of_mem _ ?_
    exact dryPullItemsMkdirs pol rs (lfsMkdirs fs target) target it subRs hmem
      hnode hfile

/-- Witness for C10: a dry-run pull of a remote tree holding one subfolder
`"sub"`, into target path `["base"]`, on an empty local filesystem. -/
theorem dry_run_pull_creates_local_dirs_witness :
    Eff.mkdirs ["base"]
      ∈ (syncFromDrive true ConflictPolicy.newerWins ⟨[], [], 0⟩
          (.cons (.mk "rid" "sub" (.folder .nil)) .nil) ["base"]).2 ∧
    Eff.mkdirs (["base"] ++ [(RItem.mk "rid" "sub" (.folder .nil)).name])
      ∈ (syncFromDrive true ConflictPolicy.newerWins ⟨[], [], 0⟩
          (.cons (.mk "rid" "sub" (.folder .nil)) .nil) ["base"]).2 :=
  ⟨(dry_run_pull_creates_local_dirs ConflictPolicy.newerWins ⟨[], [], 0⟩
      (.cons (.mk "rid" "sub" (.folder .nil)) .nil) ["base"]).1,
   (dry_run_pull_creates_local_dirs ConflictPolicy.newerWins ⟨[], [], 0⟩
      (.cons (.mk "rid" "sub" (.folder .nil)) .nil) ["base"]).2.1
     (.mk "rid" "sub" (.folder .nil)) .nil
     (by simp [RItems.toList]) rfl (by decide)⟩


end GdriveSync
